import Mathlib

/-!
Verification of the ghostdb in-process document store.

This file shallowly embeds the core of the repository — the Robin Hood hash
index (src/unnamed/part_004, `hash-index.js`), the B+ tree ordered index
(src/unnamed/part_003, `BPlusTree`), the index manager (src/unnamed/part_005),
the query planner/executor and LRU result cache (src/unnamed/part_006), the
memory engine (src/unnamed/part_007) and the database façade
(src/ghostdb/src/core/database.js) — and proves or refutes the frozen claims
about them.

Modelling conventions:
* JavaScript values that appear as index keys, document fields and filter
  operands are modelled by `JVal`.  Claims only exercise `null`, booleans,
  integers and strings; floats are not needed.  `JVal.obj` stands for a plain
  object reference (used when the planner passes a whole criterion object as a
  hash key); two distinct object literals are never `===` in JavaScript, which
  `jsStrictEq` reflects by making `obj === obj` false.
* `undefined` (an absent field or an absent range bound) is modelled by
  `Option JVal` with `none` for `undefined`; every relational comparison
  against `none` is `false`, exactly as in JavaScript.
* Async/await, per-bucket locks and lock queues serialise to nothing under a
  single-threaded event loop with one operation in flight, so the embedding is
  the straight-line state transformer of each method.
* Unbounded `while (true)` loops (the Robin Hood probe loop, backward shift)
  are given explicit fuel and return `none` when it runs out; every theorem
  that needs a completed operation carries the corresponding `= some _`
  hypothesis or evaluates on concrete inputs where the fuel clearly suffices.
* Statistics counters that never feed back into behaviour (`inserts`,
  `collisions`, timing, hit rates) are omitted; `maxProbeLength` is kept
  because `get` and `delete` bound their probe loops by it.
* The process-wide `HASH_CACHE` memo-table stores exact hash values and is
  observationally pure, so hashing is modelled directly by the FNV-1a mix.
-/

/-- JavaScript primitive values used as keys, fields and operands.
`obj` is an opaque object reference (see module docstring). -/
inductive JVal where
  | null
  | bool (b : Bool)
  | num (n : Int)
  | str (s : String)
  | obj
deriving DecidableEq, Repr

/-- JavaScript strict equality `===` on the values we model.  Two distinct
object literals are different references, hence `obj === obj` is `false`
(no claim ever compares an object with itself through one shared
reference). -/
def jsStrictEq : JVal → JVal → Bool
  | .null, .null => true
  | .bool a, .bool b => a == b
  | .num a, .num b => a == b
  | .str a, .str b => a == b
  | _, _ => false

/-- JavaScript `String(v)` coercion for the values we model; `String` of a
plain object is `"[object Object]"`. -/
def jsToString : JVal → String
  | .null => "null"
  | .bool b => if b then "true" else "false"
  | .num n => toString n
  | .str s => s
  | .obj => "[object Object]"

/-- JavaScript `<` restricted to same-type operands (numbers by value,
strings lexicographically by code unit).  Cross-type coercing comparisons are
not exercised by any claim and are modelled as `false`. -/
def jsLt : JVal → JVal → Bool
  | .num a, .num b => a < b
  | .str a, .str b => a < b
  | _, _ => false

/-- JavaScript `<=` restricted to same-type operands. -/
def jsLe : JVal → JVal → Bool
  | .num a, .num b => a ≤ b
  | .str a, .str b => a < b || a == b
  | _, _ => false

/-- JavaScript `<` where the left operand may be `undefined` (`none`):
any comparison with `undefined` is `false`. -/
def jsLtL : Option JVal → JVal → Bool
  | some a, b => jsLt a b
  | none, _ => false

/-- JavaScript `<=` where the left operand may be `undefined`. -/
def jsLeL : Option JVal → JVal → Bool
  | some a, b => jsLe a b
  | none, _ => false

/-- JavaScript `>` where the left operand may be `undefined`. -/
def jsGtL : Option JVal → JVal → Bool
  | some a, b => jsLt b a
  | none, _ => false

/-- JavaScript `>=` where the left operand may be `undefined`. -/
def jsGeL : Option JVal → JVal → Bool
  | some a, b => jsLe b a
  | none, _ => false

/-- JavaScript `<` where the right operand may be `undefined` (used by
`findKeyPosition` when probing with an absent `startKey`). -/
def jsLtR : JVal → Option JVal → Bool
  | a, some b => jsLt a b
  | _, none => false

/-- JavaScript `>` where the right operand may be `undefined` (used by
`rangeQuery` against an absent `endKey`). -/
def jsGtR : JVal → Option JVal → Bool
  | a, some b => jsLt b a
  | _, none => false

/-- JavaScript `>=` where the right operand may be `undefined` (used by
`rangeQuery` against an absent `startKey`). -/
def jsGeR : JVal → Option JVal → Bool
  | a, some b => jsLe b a
  | _, none => false

/-- Strict equality where the left side may be `undefined`; `undefined === v`
is `false` for every modelled value `v`. -/
def jsStrictEqL : Option JVal → JVal → Bool
  | some a, b => jsStrictEq a b
  | none, _ => false

/-- FNV-1a 32-bit hash of a string, as computed by `HashIndex._hash` and
`ShardedHashIndex._hash`: start from the offset basis, xor each UTF-16 code
unit, multiply by the FNV prime with `Math.imul` (32-bit wraparound).  The
source's 4-way loop unrolling computes the identical value.  All keys in this
file are ASCII, where UTF-16 code units coincide with code points. -/
def fnv1a (s : String) : Nat :=
  s.toList.foldl (fun h c => ((h ^^^ c.toNat) * 16777619) % 4294967296) 2166136261

/-- The `_nextPowerOfTwo` bit-smearing routine of `HashIndex`. -/
def nextPowerOfTwo (n : Nat) : Nat :=
  let n := n - 1
  let n := n ||| (n >>> 1)
  let n := n ||| (n >>> 2)
  let n := n ||| (n >>> 4)
  let n := n ||| (n >>> 8)
  let n := n ||| (n >>> 16)
  n + 1

/-- One slot of a `HashBucket.entries` array: `{key, value, hash, psl}`. -/
structure HBEntry where
  key : JVal
  value : String
  hash : Nat
  psl : Nat
deriving DecidableEq, Repr

/-- The Robin Hood hash index state: `capacity` buckets, each an entries
array; `size` and the `maxProbeLength` statistic, which `get` and `delete`
use to bound their probe loops. -/
structure HashIdx where
  capacity : Nat
  size : Nat
  maxProbeLength : Nat
  buckets : List (List HBEntry)
deriving DecidableEq, Repr

/-- The `HashIndex(initialCapacity)` constructor: capacity is rounded up to a
power of two and every bucket starts empty.  The source default is 16384. -/
def HashIdx.new (initialCapacity : Nat) : HashIdx :=
  let c := nextPowerOfTwo initialCapacity
  { capacity := c, size := 0, maxProbeLength := 0, buckets := List.replicate c [] }

/-- Replace the value of the entry at index `i`, keeping key, hash and psl
(the `{ ...oldEntries[i], value }` spread in the duplicate-key branch). -/
def replaceValueAt (es : List HBEntry) (i : Nat) (v : String) : List HBEntry :=
  match es.get? i with
  | some e => es.set i { e with value := v }
  | none => es

/-- The Robin Hood probe loop of `HashIndex.insert` (the `while (true)` body).
Carries the suitor `entry` and the running probe length `psl` from bucket
`idx` onward:
* empty bucket: place the suitor with `entry.psl := psl`, grow `size`, raise
  `maxProbeLength`;
* a bucket entry with an equal key: replace its value in place (update
  semantics) without touching `size`;
* `psl > entries[0].psl`: store the suitor as it is — the source does NOT
  refresh `entry.psl` here, so the stored probe length is stale — and carry
  the displaced entry onward with `psl := displaced.psl + 1`;
* otherwise move to the next bucket with `psl + 1`.
Fuel bounds the number of probed buckets; `none` models non-termination. -/
def insertLoop : Nat → HashIdx → HBEntry → Nat → Nat → Option HashIdx
  | 0, _, _, _, _ => none
  | fuel + 1, t, entry, psl, idx =>
    let bkt := t.buckets.getD idx []
    match bkt with
    | [] =>
      some { t with
        buckets := t.buckets.set idx [{ entry with psl := psl }],
        size := t.size + 1,
        maxProbeLength := if psl > t.maxProbeLength then psl else t.maxProbeLength }
    | e0 :: _ =>
      match bkt.findIdx? (fun e => jsStrictEq e.key entry.key) with
      | some i =>
        some { t with buckets := t.buckets.set idx (replaceValueAt bkt i entry.value) }
      | none =>
        if psl > e0.psl then
          let t' := { t with buckets := t.buckets.set idx (entry :: bkt.tail) }
          insertLoop fuel t' e0 (e0.psl + 1) ((idx + 1) &&& (t.capacity - 1))
        else
          insertLoop fuel t entry (psl + 1) ((idx + 1) &&& (t.capacity - 1))

/-- All entries of the table, in bucket order (the `entries()` generator). -/
def HashIdx.allEntries (t : HashIdx) : List HBEntry :=
  t.buckets.flatten

/-- `HashIndex.insert(key, value)`.  First the load-factor check
`size / capacity > 0.75` — on the PRE-insert size, compared exactly since
`capacity` is a power of two, hence `4 * size > 3 * capacity` — triggering
`_resize`; then the Robin Hood probe loop from the ideal bucket
`hash & (capacity - 1)`.  `_resize` doubles the capacity, clears `size` and
`maxProbeLength` and re-inserts every entry of every old bucket in order
through this same `insert` (re-deriving the identical FNV hash).  `fuel`
bounds the resize recursion depth (the source's `resizeLock` makes a
re-entrant resize a no-op; no theorem exercises that path, which here simply
exhausts fuel). -/
def insertHI : Nat → HashIdx → JVal → String → Option HashIdx
  | 0, _, _, _ => none
  | fuel + 1, t, key, value => do
    let t ←
      if 4 * t.size > 3 * t.capacity then
        let fresh : HashIdx :=
          { capacity := 2 * t.capacity, size := 0, maxProbeLength := 0,
            buckets := List.replicate (2 * t.capacity) [] }
        t.allEntries.foldlM (fun acc e => insertHI fuel acc e.key e.value) fresh
      else pure t
    let h := fnv1a (jsToString key)
    insertLoop (t.capacity + 1) t { key := key, value := value, hash := h, psl := 0 } 0
      (h &&& (t.capacity - 1))

/-- `HashIndex.insert` with the fuel any reachable call needs: one resize,
whose re-insertions perform no nested resize. -/
def HashIdx.insert (t : HashIdx) (key : JVal) (value : String) : Option HashIdx :=
  insertHI 2 t key value

/-- `HashIndex.get(key)`: probe from the ideal bucket while
`psl <= maxProbeLength`; inside a bucket, return the value on hash and strict
key equality, or `null` as soon as `psl > entry.psl`. -/
def getLoop (t : HashIdx) (key : JVal) (h : Nat) : Nat → Nat → Nat → Option String
  | 0, _, _ => none
  | fuel + 1, psl, idx =>
    if psl > t.maxProbeLength then none
    else
      let rec scan : List HBEntry → Option (Option String)
        | [] => none
        | e :: es =>
          if e.hash == h && jsStrictEq e.key key then some (some e.value)
          else if psl > e.psl then some none
          else scan es
      match scan (t.buckets.getD idx []) with
      | some r => r
      | none => getLoop t key h fuel (psl + 1) ((idx + 1) &&& (t.capacity - 1))

/-- `HashIndex.get`. -/
def HashIdx.get (t : HashIdx) (key : JVal) : Option String :=
  let h := fnv1a (jsToString key)
  getLoop t key h (t.maxProbeLength + 2) 0 (h &&& (t.capacity - 1))

/-- `HashIndex._backwardShift(startIndex)`: walk forward from the freed
bucket; while the next bucket is non-empty and its head has positive psl,
decrement that psl and move the head back one bucket (`prevBucket.entries
.push(entry); bucket.entries.shift()`).  Fuel bounds the walk. -/
def backwardShift : Nat → HashIdx → Nat → Option HashIdx
  | 0, _, _ => none
  | fuel + 1, t, current =>
    match t.buckets.getD current [] with
    | [] => some t
    | e :: rest =>
      if e.psl == 0 then some t
      else
        let moved := { e with psl := e.psl - 1 }
        let prev := (current + t.capacity - 1) &&& (t.capacity - 1)
        let bs := t.buckets.set prev (t.buckets.getD prev [] ++ [moved])
        let bs := bs.set current rest
        backwardShift fuel { t with buckets := bs } ((current + 1) &&& (t.capacity - 1))

/-- Scan one bucket as `HashIndex.delete` does: report the index of the first
entry whose key is strictly equal, or an early `not found` as soon as
`psl > entry.psl`, or fall through to the next bucket. -/
def deleteScan (key : JVal) (psl : Nat) : List HBEntry → Nat → Option (Option Nat)
  | [], _ => none
  | e :: es, i =>
    if jsStrictEq e.key key then some (some i)
    else if psl > e.psl then some none
    else deleteScan key psl es (i + 1)

/-- The probe loop of `HashIndex.delete`: while `psl <= maxProbeLength`, scan
the bucket; on a key match splice the entry out, decrement `size` and run the
backward shift, returning `true`; on the early-psl exit return `false`. -/
def deleteLoop (key : JVal) : Nat → HashIdx → Nat → Nat → Option (Bool × HashIdx)
  | 0, _, _, _ => none
  | fuel + 1, t, psl, idx =>
    if psl > t.maxProbeLength then some (false, t)
    else
      let bkt := t.buckets.getD idx []
      match deleteScan key psl bkt 0 with
      | some (some i) => do
        let t' := { t with buckets := t.buckets.set idx (bkt.eraseIdx i), size := t.size - 1 }
        let t'' ← backwardShift (t'.capacity + 1) t' ((idx + 1) &&& (t'.capacity - 1))
        pure (true, t'')
      | some none => some (false, t)
      | none => deleteLoop key fuel t (psl + 1) ((idx + 1) &&& (t.capacity - 1))

/-- `HashIndex.delete(key)`: probe from the ideal bucket, bounded by
`maxProbeLength`, removing the entry and backward-shifting on success. -/
def HashIdx.delete (t : HashIdx) (key : JVal) : Option (Bool × HashIdx) :=
  let h := fnv1a (jsToString key)
  deleteLoop key (t.maxProbeLength + 2) t 0 (h &&& (t.capacity - 1))

/-- A key is present in the table when some bucket holds an entry strictly
equal to it (the semantic notion of membership, independent of the possibly
inconsistent probe statistics). -/
def HashIdx.containsKey (t : HashIdx) (key : JVal) : Bool :=
  t.allEntries.any (fun e => jsStrictEq e.key key)

/-- A B+ tree node (`BPlusTreeNode`): either a leaf carrying parallel
`keys`/`values` arrays — kept here as one list of pairs — or an internal node
with separator `keys` and `children`.  The source's `parent` and `next`
pointers are represented implicitly: splits are propagated by recursion, and
the leaf chain is the in-order sequence of leaves (`BTNode.leafList`). -/
inductive BTNode where
  | leaf (kvs : List (JVal × String))
  | internal (keys : List JVal) (children : List BTNode)
deriving Repr

/-- A B+ tree (`BPlusTree`): branching parameter `order` and the root node.
The constructor's tree is a single empty leaf. -/
structure BTree where
  order : Nat
  root : BTNode
deriving Repr

/-- The `new BPlusTree(order)` constructor; the source default order is 128. -/
def BTree.new (order : Nat) : BTree :=
  { order := order, root := .leaf [] }

/-- Binary search of `BPlusTreeNode.findKeyPosition`: lower bound of `key`
among `keys`, probing with `(left + right) >>> 1` and the JavaScript `<`.
The probe key may be `undefined` (`rangeQuery` passes `startKey` through
unchecked), in which case every comparison is false and the position is 0.
Fuel is the interval width, which halves every step. -/
def findKeyPosGo (keys : List JVal) (key : Option JVal) : Nat → Nat → Nat → Nat
  | 0, left, _ => left
  | fuel + 1, left, right =>
    if left < right then
      let mid := (left + right) / 2
      if jsLtR (keys.getD mid .null) key then
        findKeyPosGo keys key fuel (mid + 1) right
      else
        findKeyPosGo keys key fuel left mid
    else left

/-- `BPlusTreeNode.findKeyPosition(key)` on a node's key list. -/
def findKeyPosition (keys : List JVal) (key : Option JVal) : Nat :=
  findKeyPosGo keys key (keys.length + 1) 0 keys.length

/-- `BPlusTreeNode.isFull()`: at least `order - 1` keys. -/
def btIsFull (order : Nat) (keyCount : Nat) : Bool :=
  keyCount ≥ order - 1

/-- `BPlusTreeNode.isUnderfull()`: fewer than `ceil(order / 2) - 1` keys. -/
def btIsUnderfull (order : Nat) (keyCount : Nat) : Bool :=
  keyCount < (order + 1) / 2 - 1

/-- Result of inserting into a subtree: either the updated node, or the two
halves of a split together with the promoted separator, exactly the effect of
`_splitLeaf` / `_splitInternal` followed by `_insertIntoParent`. -/
inductive InsResult where
  | one (n : BTNode)
  | split (left : BTNode) (sep : JVal) (right : BTNode)

/-- `BPlusTree._splitLeaf`: split at `mid = floor(length / 2)`; the right
leaf takes the upper half and becomes the old leaf's `next`; the promoted
key is the first key of the right leaf. -/
def splitLeaf (kvs : List (JVal × String)) : InsResult :=
  let mid := kvs.length / 2
  let rightKvs := kvs.drop mid
  let promote := (rightKvs.headD (.null, "")).1
  .split (.leaf (kvs.take mid)) promote (.leaf rightKvs)

/-- `BPlusTree._splitInternal`: promote `keys[mid]`; the right node takes
`keys[mid+1..]` and `children[mid+1..]`. -/
def splitInternal (keys : List JVal) (children : List BTNode) : InsResult :=
  let mid := keys.length / 2
  let promote := keys.getD mid .null
  .split (.internal (keys.take mid) (children.take (mid + 1)))
    promote (.internal (keys.drop (mid + 1)) (children.drop (mid + 1)))

/-- Outcome of descending into one child during insert. -/
inductive ChildIns where
  | oor
  | updated (children : List BTNode)
  | wasSplit (children : List BTNode) (sep : JVal) (right : BTNode)

mutual

/-- Recursive body of `BPlusTree.insert`: descend by `findKeyPosition`
(`_findLeaf`); in the leaf, update in place when `keys[pos]` strictly equals
the key, otherwise splice the pair in at `pos` and split when the leaf
`isFull()`.  A split bubbling out of a child is spliced into this node at
`findKeyPosition(promotedKey)` (`_insertIntoParent` recomputes the position),
and the node itself splits when it becomes full.  An out-of-range child
position cannot occur in a well-formed tree (`pos <= keys.length <
children.length`); in JavaScript it would dereference `undefined`. -/
def insertNode (order : Nat) (key : JVal) (value : String) : BTNode → InsResult
  | .leaf kvs =>
    let pos := findKeyPosition (kvs.map Prod.fst) (some key)
    match kvs.get? pos with
    | some (k, _) =>
      if jsStrictEq k key then .one (.leaf (kvs.set pos (k, value)))
      else
        let kvs' := kvs.take pos ++ (key, value) :: kvs.drop pos
        if btIsFull order kvs'.length then splitLeaf kvs' else .one (.leaf kvs')
    | none =>
      let kvs' := kvs.take pos ++ (key, value) :: kvs.drop pos
      if btIsFull order kvs'.length then splitLeaf kvs' else .one (.leaf kvs')
  | .internal keys children =>
    let pos := findKeyPosition keys (some key)
    match insertChild order key value children pos with
    | .oor => .one (.internal keys children)
    | .updated children' => .one (.internal keys children')
    | .wasSplit children' sep r =>
      let p2 := findKeyPosition keys (some sep)
      let keys' := keys.take p2 ++ sep :: keys.drop p2
      let children'' := children'.take (p2 + 1) ++ r :: children'.drop (p2 + 1)
      if btIsFull order keys'.length then splitInternal keys' children''
      else .one (.internal keys' children'')

/-- Insert into the child at the given position of a children array,
reporting an in-place update or a bubbled-up split (with the left half
already in place). -/
def insertChild (order : Nat) (key : JVal) (value : String) :
    List BTNode → Nat → ChildIns
  | [], _ => .oor
  | c :: cs, 0 =>
    match insertNode order key value c with
    | .one c' => .updated (c' :: cs)
    | .split l sep r => .wasSplit (l :: cs) sep r
  | c :: cs, pos + 1 =>
    match insertChild order key value cs pos with
    | .oor => .oor
    | .updated cs' => .updated (c :: cs')
    | .wasSplit cs' sep r => .wasSplit (c :: cs') sep r

end

/-- `BPlusTree.insert(key, value)`: run the recursive insert; when the root
splits, create a new root with the promoted separator and the two halves. -/
def BTree.insert (t : BTree) (key : JVal) (value : String) : BTree :=
  match insertNode t.order key value t.root with
  | .one n => { t with root := n }
  | .split l sep r => { t with root := .internal [sep] [l, r] }

mutual

/-- The in-order list of leaf contents — the leaf chain obtained by starting
at the leftmost leaf and following `next` pointers. -/
def BTNode.leafList : BTNode → List (List (JVal × String))
  | .leaf kvs => [kvs]
  | .internal _ children => leafListList children

/-- Leaf chains of a children array, concatenated in order. -/
def leafListList : List BTNode → List (List (JVal × String))
  | [] => []
  | c :: cs => c.leafList ++ leafListList cs

end

/-- All (key, id) pairs of the tree in leaf-chain order. -/
def BTree.toList (t : BTree) : List (JVal × String) :=
  t.root.leafList.flatten

/-- The number of leaves in a subtree. -/
def BTNode.countLeaves (n : BTNode) : Nat :=
  n.leafList.length

mutual

/-- The suffix of the leaf chain starting at the leaf that `_findLeaf(key)`
reaches (descend by `findKeyPosition`; an absent key compares false
everywhere and descends to the leftmost leaf).  The chain then continues
through every leaf to the right, exactly as the `next` pointers thread the
tree. -/
def findLeafChain : BTNode → Option JVal → List (List (JVal × String))
  | .leaf kvs, _ => [kvs]
  | .internal keys children, key =>
    chainFromChild key children (findKeyPosition keys key)

/-- Descend into the child at the given position; the chain continues with
every leaf of the later siblings. -/
def chainFromChild (key : Option JVal) : List BTNode → Nat → List (List (JVal × String))
  | [], _ => []
  | c :: cs, 0 => findLeafChain c key ++ leafListList cs
  | _ :: cs, pos + 1 => chainFromChild key cs pos

end

/-- One leaf pass of `BPlusTree.rangeQuery`: walk the keys; any key `> endKey`
ends the whole query (`return results`), any key `>= startKey` is emitted.
The Boolean reports whether the early return fired. -/
def rqLeaf (lo hi : Option JVal) : List (JVal × String) → List (JVal × String) × Bool
  | [] => ([], false)
  | (k, v) :: rest =>
    if jsGtR k hi then ([], true)
    else
      let (res, stop) := rqLeaf lo hi rest
      if jsGeR k lo then ((k, v) :: res, stop) else (res, stop)

/-- The leaf-chain walk of `rangeQuery`. -/
def rqChain (lo hi : Option JVal) : List (List (JVal × String)) → List (JVal × String)
  | [] => []
  | kvs :: rest =>
    let (res, stop) := rqLeaf lo hi kvs
    if stop then res else res ++ rqChain lo hi rest

/-- `BPlusTree.rangeQuery(startKey, endKey)`: find the starting leaf, start
at `findKeyPosition(startKey)` inside it, then walk the `next` chain emitting
pairs with `startKey <= key <= endKey`, stopping at the first key past
`endKey`.  Both bounds are raw JavaScript values that may be `undefined`. -/
def BTree.rangeQuery (t : BTree) (lo hi : Option JVal) : List (JVal × String) :=
  match findLeafChain t.root lo with
  | [] => []
  | first :: rest =>
    let pos := findKeyPosition (first.map Prod.fst) lo
    rqChain lo hi (first.drop pos :: rest)

/-- Remove `key` from a leaf as `BPlusTree.delete` does: locate it with
`findKeyPosition`, return unchanged with `false` when `keys[pos]` is not the
key, else splice it out. -/
def deleteFromLeaf (kvs : List (JVal × String)) (key : JVal) :
    List (JVal × String) × Bool :=
  let pos := findKeyPosition (kvs.map Prod.fst) (some key)
  match kvs.get? pos with
  | some (k, _) => if jsStrictEq k key then (kvs.eraseIdx pos, true) else (kvs, false)
  | none => (kvs, false)

/-- `BPlusTree._mergeLeaf(leaf, parent, childIndex)` acting on the parent's
arrays: at child index `ci > 0` the leaf is appended onto its left sibling
and separator `ci - 1` disappears; at index 0 the right sibling is appended
onto the leaf and separator 0 disappears. -/
def mergeLeafAt (keys : List JVal) (children : List BTNode) (ci : Nat)
    (leafKvs : List (JVal × String)) : List JVal × List BTNode :=
  match ci, children.getD (ci - 1) (.leaf []) with
  | i + 1, .leaf lkvs =>
    (keys.eraseIdx i, ((children.set i (.leaf (lkvs ++ leafKvs))).eraseIdx (i + 1)))
  | 0, _ =>
    match children.getD 1 (.leaf []) with
    | .leaf rkvs =>
      (keys.eraseIdx 0, ((children.set 0 (.leaf (leafKvs ++ rkvs))).eraseIdx 1))
    | _ => (keys, children)
  | _, _ => (keys, children)

/-- The borrow-from-right-else-merge tail of `_rebalanceLeaf`: when the right
sibling has a surplus, its first pair moves to the back of the leaf and the
separator at `ci` becomes the right sibling's new first key; otherwise the
leaf is merged per `_mergeLeaf`. -/
def rebalanceRight (keys : List JVal) (children : List BTNode) (ci : Nat)
    (leafKvs : List (JVal × String)) (minSurplus : Nat) : List JVal × List BTNode :=
  match children.getD (ci + 1) (.internal [] []) with
  | .leaf rkvs =>
    if ci < children.length - 1 && rkvs.length > minSurplus then
      match rkvs with
      | borrow :: rrest =>
        (keys.set ci ((rrest.headD (.null, "")).1),
          ((children.set ci (.leaf (leafKvs ++ [borrow]))).set (ci + 1) (.leaf rrest)))
      | [] => (keys, children)
    else mergeLeafAt keys children ci leafKvs
  | _ =>
    if ci < children.length - 1 then (keys, children)
    else mergeLeafAt keys children ci leafKvs

/-- `BPlusTree._rebalanceLeaf` on the parent's `keys`/`children` around the
underfull leaf at child index `ci`: borrow from a left sibling with surplus
(its last pair moves to the front of the leaf and separator `ci - 1` becomes
the leaf's new first key), else borrow from the right sibling, else merge.
Siblings of a leaf are leaves in any well-formed tree; a non-leaf sibling
leaves the node unchanged (in JavaScript it would corrupt the arrays). -/
def rebalanceLeafAt (order : Nat) (keys : List JVal) (children : List BTNode)
    (ci : Nat) : List JVal × List BTNode :=
  let minSurplus := (order + 1) / 2 - 1
  let leafKvs := match children.getD ci (.leaf []) with
    | .leaf kvs => kvs
    | _ => []
  match ci, children.getD (ci - 1) (.leaf []) with
  | i + 1, .leaf lkvs =>
    if lkvs.length > minSurplus then
      match lkvs.getLast? with
      | some borrow =>
        (keys.set i borrow.1,
          ((children.set (i + 1) (.leaf (borrow :: leafKvs))).set i (.leaf lkvs.dropLast)))
      | none => (keys, children)
    else rebalanceRight keys children (i + 1) leafKvs minSurplus
  | 0, _ => rebalanceRight keys children 0 leafKvs minSurplus
  | _, _ => (keys, children)

/-- Outcome of descending into one child during delete. -/
inductive ChildDel where
  | oor
  | leafDone (kvs : List (JVal × String)) (found : Bool)
  | innerDone (child : BTNode) (found : Bool)

mutual

/-- Recursive body of `BPlusTree.delete`: descend to the leaf; remove the
key; when the removal leaves the (non-root) leaf underfull, rebalance at its
direct parent.  Underflow of internal nodes is NOT repaired —
`_rebalanceInternal` has an empty body in the source. -/
def deleteNode (order : Nat) (key : JVal) : BTNode → BTNode × Bool
  | .leaf kvs =>
    let (kvs', found) := deleteFromLeaf kvs key
    (.leaf kvs', found)
  | .internal keys children =>
    let pos := findKeyPosition keys (some key)
    match delChild order key children pos with
    | .oor => (.internal keys children, false)
    | .leafDone kvs' found =>
      let children' := children.set pos (.leaf kvs')
      if found && btIsUnderfull order kvs'.length then
        let (k2, c2) := rebalanceLeafAt order keys children' pos
        (.internal k2 c2, true)
      else (.internal keys children', found)
    | .innerDone c' found => (.internal keys (children.set pos c'), found)

/-- Delete inside the child at the given position of a children array. -/
def delChild (order : Nat) (key : JVal) : List BTNode → Nat → ChildDel
  | [], _ => .oor
  | .leaf kvs :: _, 0 =>
    let (kvs', found) := deleteFromLeaf kvs key
    .leafDone kvs' found
  | .internal ks cs :: _, 0 =>
    let (c', found) := deleteNode order key (.internal ks cs)
    .innerDone c' found
  | _ :: cs, pos + 1 => delChild order key cs pos

end

/-- `BPlusTree.delete(key)`.  The root itself is never rebalanced; when a
merge at the root empties its key array, its single remaining child becomes
the new root (`parent === this.root && parent.keys.length === 0`). -/
def BTree.delete (t : BTree) (key : JVal) : BTree × Bool :=
  match t.root with
  | .leaf kvs =>
    let (kvs', found) := deleteFromLeaf kvs key
    ({ t with root := .leaf kvs' }, found)
  | .internal keys children =>
    match deleteNode t.order key (.internal keys children) with
    | (.internal [] (c :: _), found) => ({ t with root := c }, found)
    | (n', found) => ({ t with root := n' }, found)

/-- A document body: an ordered field-to-value mapping (JavaScript object
key order is insertion order).  Later duplicates of a key never arise in the
scenarios modelled here, and `Doc.get` takes the first match. -/
abbrev Doc := List (String × JVal)

/-- JavaScript property access `doc[field]`: `none` is `undefined`. -/
def Doc.get (d : Doc) (f : String) : Option JVal :=
  (d.find? (fun p => p.1 == f)).map (·.2)

/-- The `_id` of a stored document, as a string. -/
def Doc.docId (d : Doc) : String :=
  match d.get "_id" with
  | some (.str s) => s
  | _ => ""

/-- Comparison operators of the filter language (the `$`-prefixed keys of a
criterion object).  `$in` / `$nin` / `$exists` are accepted by the source but
exercised by no claim and are not modelled. -/
inductive COp where
  | eq | ne | gt | gte | lt | lte
deriving DecidableEq, Repr

/-- A filter criterion: either a literal (simple equality) or an operator
object such as `{$gt: v}`. -/
inductive Criterion where
  | lit (v : JVal)
  | ops (cs : List (COp × JVal))
deriving DecidableEq, Repr

/-- A filter document: ordered field-to-criterion pairs.  The top-level
logical keys `$and` / `$or` / `$not` carry filter lists the `Criterion` type
does not represent; any field starting with `$` therefore reaches only the
`default: return true` arm of `_evaluateOperator` in this embedding, and no
claim uses logical operators. -/
abbrev QFilter := List (String × Criterion)

/-- The `field.startsWith('$')` guard, written over the character list so
the kernel can evaluate it. -/
def startsWithDollar (s : String) : Bool :=
  match s.data with
  | [] => false
  | c :: _ => c == '$'

/-- `QueryEngine._evaluateComparison(fieldValue, comparison)`: every operator
entry must pass, each `return false` guard written exactly as in the source
(`$gt` fails when `fieldValue <= value`, and any comparison against an
`undefined` field value is false, so an absent field passes `$gt`). -/
def evalComparison (fv : Option JVal) : List (COp × JVal) → Bool
  | [] => true
  | (op, v) :: rest =>
    let pass :=
      match op with
      | .eq => jsStrictEqL fv v
      | .ne => !jsStrictEqL fv v
      | .gt => !jsLeL fv v
      | .gte => !jsLtL fv v
      | .lt => !jsGeL fv v
      | .lte => !jsGtL fv v
    if pass then evalComparison fv rest else false

/-- `QueryEngine._matchesFilter(document, filter)`. -/
def matchesFilter (d : Doc) : QFilter → Bool
  | [] => true
  | (field, crit) :: rest =>
    let ok :=
      if startsWithDollar field then true
      else
        match crit with
        | .lit v => jsStrictEqL (d.get field) v
        | .ops cs => evalComparison (d.get field) cs
    ok && matchesFilter d rest

/-- Access-path type of a query plan. -/
inductive PlanType where
  | fullScan | indexEquality | indexRange
deriving DecidableEq, Repr

/-- A query plan (`_createQueryPlan` result).  `pvalue` keeps the raw
criterion, exactly as `plan.value = value` stores the unexamined filter
entry. -/
structure Plan where
  ptype : PlanType := .fullScan
  field : String := ""
  pvalue : Option Criterion := none
deriving DecidableEq, Repr

/-- Query options accepted by `execute` / `find`.  `skip` and `limit` are
guarded by JavaScript truthiness (`if (options.skip)`), so `some 0` and
`none` behave alike; `sort` and `select` are objects, truthy exactly when
present. -/
structure QOptions where
  sort : Option (List (String × Int)) := none
  skip : Option Nat := none
  limit : Option Nat := none
  select : Option (List String) := none

/-- JavaScript truthiness of an optional number: `undefined` and `0` are
falsy. -/
def natTruthy : Option Nat → Bool
  | none => false
  | some n => n != 0

/-- The sort comparator of `_applySort`: first differing field decides;
`undefined` sorts after anything on ascending (`return 1`), before on
descending, and the raw comparison is negated when the direction is not
`1`. -/
def cmpDocs (spec : List (String × Int)) (a b : Doc) : Int :=
  match spec with
  | [] => 0
  | (field, dir) :: rest =>
    let av := a.get field
    let bv := b.get field
    if av == bv then cmpDocs rest a b
    else if av.isNone then 1
    else if bv.isNone then -1
    else
      let comparison : Int := if jsLtL av (bv.getD .null) then -1 else 1
      if dir == 1 then comparison else -comparison

/-- `QueryEngine._applySort`: V8's `Array.prototype.sort` is stable, modelled
by a stable merge sort over the comparator. -/
def applySort (spec : List (String × Int)) (docs : List Doc) : List Doc :=
  docs.mergeSort (fun a b => cmpDocs spec a b ≤ 0)

/-- `QueryEngine._applyProjection`: keep `_id` and the selected fields the
document owns, in selection order. -/
def applyProjection (select : List String) (d : Doc) : Doc :=
  ("_id", (d.get "_id").getD .null) ::
    select.filterMap (fun f => (d.get f).map (fun v => (f, v)))

/-- Error kinds surfaced by the embedded operations.  `typeError` models a
JavaScript `TypeError` crash; `fuelOut` models a probe loop that never finds
an empty bucket (unreachable in every scenario proved below). -/
inductive DbErr where
  | typeError
  | missingCollection
  | duplicateIndexErr
  | fuelOut
deriving DecidableEq, Repr

/-- Decidable equality for `Except` results, used to evaluate concrete
scenarios inside the kernel. -/
instance {e a : Type} [DecidableEq e] [DecidableEq a] : DecidableEq (Except e a) := fun x y =>
  match x, y with
  | .error u, .error v =>
    if h : u = v then .isTrue (by rw [h]) else .isFalse (by intro hc; cases hc; exact h rfl)
  | .ok u, .ok v =>
    if h : u = v then .isTrue (by rw [h]) else .isFalse (by intro hc; cases hc; exact h rfl)
  | .error _, .ok _ => .isFalse (by intro hc; cases hc)
  | .ok _, .error _ => .isFalse (by intro hc; cases hc)

/-- The LRU query-result cache (`CacheLayer`). -/
structure Cache where
  maxSize : Nat
  cache : List (String × List Doc)
  accessOrder : List String
deriving Repr

/-- Lookup in the cache's `Map`. -/
def Cache.clookup (c : Cache) (k : String) : Option (List Doc) :=
  (c.cache.find? (fun p => p.1 == k)).map (·.2)

/-- `CacheLayer._updateAccessOrder(key)`: drop the key's old position and
push it to the back. -/
def Cache.updateAccessOrder (c : Cache) (k : String) : Cache :=
  { c with accessOrder := c.accessOrder.erase k ++ [k] }

/-- `CacheLayer.get(key)`: on a hit, refresh the LRU order; the mapping is
never changed by a read. -/
def Cache.cget (c : Cache) (k : String) : Option (List Doc) × Cache :=
  match c.clookup k with
  | none => (none, c)
  | some v => (some v, c.updateAccessOrder k)

/-- JavaScript `Map.prototype.set`: replace in place, else append. -/
def mapSet {α : Type} : List (String × α) → String → α → List (String × α)
  | [], k, v => [(k, v)]
  | (k', v') :: rest, k, v =>
    if k' == k then (k, v) :: rest else (k', v') :: mapSet rest k v

/-- `CacheLayer._evictLRU()`: remove the least recently used key. -/
def Cache.evictLRU (c : Cache) : Cache :=
  match c.accessOrder with
  | [] => c
  | lru :: rest => { c with cache := c.cache.eraseP (fun p => p.1 == lru), accessOrder := rest }

/-- `CacheLayer.set(key, value)`: evict when at capacity and the key is new,
then store and refresh the LRU order. -/
def Cache.cset (c : Cache) (k : String) (v : List Doc) : Cache :=
  let c := if c.cache.length ≥ c.maxSize && (c.clookup k).isNone then c.evictLRU else c
  ({ c with cache := mapSet c.cache k v }).updateAccessOrder k

/-- `CacheLayer.invalidate(key)`. -/
def Cache.invalidate (c : Cache) (k : String) : Cache :=
  { c with cache := c.cache.eraseP (fun p => p.1 == k), accessOrder := c.accessOrder.erase k }

/-- The hash side of an index bundle: a plain `HashIndex` or a
`ShardedHashIndex` fan-out. -/
inductive HashKind where
  | plain (h : HashIdx)
  | sharded (shards : List HashIdx)
deriving Repr

/-- The `ShardedHashIndex(shardCount)` constructor: independent default
`HashIndex` shards. -/
def HashKind.newSharded (shardCount : Nat) : HashKind :=
  .sharded (List.replicate shardCount (HashIdx.new 16384))

/-- `ShardedHashIndex._getShard(key)`: FNV-1a of `String(key)` modulo the
shard count. -/
def shardIdx (shardCount : Nat) (key : JVal) : Nat :=
  fnv1a (jsToString key) % shardCount

/-- Insert into the hash side of a bundle, routing through the shard hash
when sharded. -/
def HashKind.insert (hk : HashKind) (key : JVal) (value : String) : Option HashKind :=
  match hk with
  | .plain t => (t.insert key value).map .plain
  | .sharded shards =>
    let i := shardIdx shards.length key
    match shards.get? i with
    | none => some (.sharded shards)
    | some s => (s.insert key value).map (fun s' => .sharded (shards.set i s'))

/-- Delete from the hash side of a bundle. -/
def HashKind.delete (hk : HashKind) (key : JVal) : Option HashKind :=
  match hk with
  | .plain t => (t.delete key).map (fun r => .plain r.2)
  | .sharded shards =>
    let i := shardIdx shards.length key
    match shards.get? i with
    | none => some (.sharded shards)
    | some s => (s.delete key).map (fun r => .sharded (shards.set i r.2))

/-- `get` on the hash side of a bundle. -/
def HashKind.get (hk : HashKind) (key : JVal) : Option String :=
  match hk with
  | .plain t => t.get key
  | .sharded shards =>
    match shards.get? (shardIdx shards.length key) with
    | none => none
    | some s => s.get key

/-- One index bundle of the `IndexManager`: the indexed field, optional hash
and B+ tree sides, and the (recorded but never enforced) `unique` flag. -/
structure Bundle where
  field : String
  hash : Option HashKind
  btree : Option BTree
  unique : Bool
deriving Repr

/-- Index kind requested at creation (`options.type`). -/
inductive IdxType where
  | hash | btree | both
deriving DecidableEq, Repr

/-- `createIndex` options: `type` defaults to `'both'`, sharding is on
unless `options.sharded === false`, `unique` defaults to false. -/
structure IdxOptions where
  idxType : IdxType := .both
  sharded : Bool := true
  unique : Bool := false

/-- The whole database state: collections (`collection.data`, an
insertion-ordered id-to-document map shared between `GhostDB` and the
`MemoryEngine`), the `IndexManager`'s per-collection per-field bundles, and
the optional `CacheLayer`.  Schemas, timestamps and statistics counters do
not influence any claim and are omitted. -/
structure Db where
  collections : List (String × List (String × Doc))
  indexes : List (String × List (String × Bundle))
  cache : Option Cache

/-- Bundles registered for a collection. -/
def Db.bundlesOf (db : Db) (coll : String) : List (String × Bundle) :=
  ((db.indexes.find? (fun p => p.1 == coll)).map (·.2)).getD []

/-- A single bundle for (collection, field). -/
def Db.bundleOf (db : Db) (coll field : String) : Option Bundle :=
  ((db.bundlesOf coll).find? (fun p => p.1 == field)).map (·.2)

/-- `IndexManager.hasIndex(collection, field)`. -/
def hasIndexIM (db : Db) (coll field : String) : Bool :=
  (db.bundleOf coll field).isSome

/-- `MemoryEngine.get(collectionName, id)`: `null` when the collection or
the document is missing. -/
def storageGet (db : Db) (coll id : String) : Option Doc :=
  match db.collections.find? (fun p => p.1 == coll) with
  | none => none
  | some (_, data) => (data.find? (fun p => p.1 == id)).map (·.2)

/-- `MemoryEngine.scan(collectionName)`: all documents in insertion order,
nothing when the collection is missing. -/
def storageScan (db : Db) (coll : String) : List Doc :=
  match db.collections.find? (fun p => p.1 == coll) with
  | none => []
  | some (_, data) => data.map (·.2)

/-- `IndexManager._addToIndex(index, fieldValue, docId)`. -/
def addToIndex (b : Bundle) (v : JVal) (id : String) : Option Bundle := do
  let h ← match b.hash with
    | some hk => (hk.insert v id).map some
    | none => some none
  let bt := b.btree.map (fun t => t.insert v id)
  pure { b with hash := h, btree := bt }

/-- `IndexManager._removeFromIndex(index, fieldValue, docId)`: both sides
delete by the field VALUE alone — the `docId` argument is accepted but never
used, so whichever document's id the index stored under that value is
removed. -/
def removeFromIndex (b : Bundle) (v : JVal) (_id : String) : Option Bundle := do
  let h ← match b.hash with
    | some hk => (hk.delete v).map some
    | none => some none
  let bt := b.btree.map (fun t => (t.delete v).1)
  pure { b with hash := h, btree := bt }

/-- Mutation kinds fed to `IndexManager.updateIndexes`. -/
inductive MOp where
  | insertOp | updateOp | deleteOp
deriving DecidableEq, Repr

/-- The per-bundle body of `IndexManager.updateIndexes`: `newValue` is the
(new) document's field, `oldValue` is the old document's field or `null`
when no old document was passed.  Insert/update first remove the old value
(updates only, and only when the old value is not `undefined`), then add the
new value when present; delete removes the deleted document's own field
value. -/
def updateOneBundle (b : Bundle) (document : Doc) (op : MOp) (oldDoc : Option Doc) :
    Option Bundle :=
  let newValue := document.get b.field
  let oldValue : Option JVal :=
    match oldDoc with
    | some d => d.get b.field
    | none => some .null
  match op with
  | .insertOp | .updateOp => do
    let b ← if op == .updateOp && oldValue.isSome then
        removeFromIndex b (oldValue.getD .null) document.docId
      else pure b
    if h : newValue.isSome then addToIndex b (newValue.get h) document.docId
    else pure b
  | .deleteOp =>
    if h : newValue.isSome then removeFromIndex b (newValue.get h) document.docId
    else pure b

/-- Replace the bundle stored for (collection, field). -/
def Db.setBundle (db : Db) (coll field : String) (b : Bundle) : Db :=
  { db with
    indexes := db.indexes.map (fun p =>
      if p.1 == coll then (p.1, p.2.map (fun q => if q.1 == field then (q.1, b) else q))
      else p) }

/-- `IndexManager.updateIndexes(collectionName, document, operation,
oldDocument)`: fold the per-bundle update over every bundle of the
collection, in registration order. -/
def updateIndexesDb (db : Db) (coll : String) (document : Doc) (op : MOp)
    (oldDoc : Option Doc) : Option Db :=
  (db.bundlesOf coll).foldlM
    (fun acc p => do
      let b' ← updateOneBundle p.2 document op oldDoc
      pure (acc.setBundle coll p.1 b'))
    db

/-- `IndexManager._buildIndex(collectionName, index)`: scan the existing
documents and add every present field value. -/
def buildIndexFrom (docs : List Doc) (b : Bundle) : Option Bundle :=
  docs.foldlM
    (fun acc d =>
      match d.get b.field with
      | some v => addToIndex acc v d.docId
      | none => pure acc)
    b

/-- Register (collection, field, bundle) in the index map, creating the
collection's entry on demand. -/
def Db.addBundle (db : Db) (coll field : String) (b : Bundle) : Db :=
  match db.indexes.find? (fun p => p.1 == coll) with
  | none => { db with indexes := db.indexes ++ [(coll, [(field, b)])] }
  | some _ =>
    { db with
      indexes := db.indexes.map (fun p =>
        if p.1 == coll then (p.1, p.2 ++ [(field, b)]) else p) }

/-- `IndexManager.createIndex(collectionName, fieldName, options)`: reject a
duplicate index, allocate the requested sides (sharded hash by default),
record `unique`, and build from the documents already stored. -/
def createIndexDb (db : Db) (coll field : String) (opts : IdxOptions) :
    Except DbErr Db :=
  if hasIndexIM db coll field then .error .duplicateIndexErr
  else
    let bundle : Bundle :=
      { field := field,
        hash :=
          if opts.idxType == .hash || opts.idxType == .both then
            some (if opts.sharded then HashKind.newSharded 16 else .plain (HashIdx.new 16384))
          else none,
        btree := if opts.idxType == .btree || opts.idxType == .both then some (BTree.new 128) else none,
        unique := opts.unique }
    match buildIndexFrom (storageScan db coll) bundle with
    | some b => .ok (db.addBundle coll field b)
    | none => .error .fuelOut

/-- `IndexManager.lookup` with `{type: 'equality'}`: a registered bundle with
a hash side answers through `hash.get` (possibly `null`); a bundle without a
hash side falls through both branches and returns `null`. -/
def lookupEquality (db : Db) (coll field : String) (value : JVal) : Option String :=
  match db.bundleOf coll field with
  | none => none
  | some b =>
    match b.hash with
    | some hk => hk.get value
    | none => none

/-- The hash key that `index.hash.get(plan.value)` receives: the planner
stores the raw criterion in `plan.value`, so an operator object arrives as
an object reference. -/
def critKey : Option Criterion → JVal
  | some (.lit v) => v
  | some (.ops _) => .obj
  | none => .obj

/-- `QueryEngine._createQueryPlan(collectionName, filter, options)`: walk the
filter fields in order, skip `$`-keys, and take the first indexed field.  A
criterion object carrying `$gte` or `$lte` selects the range path — whose
cost estimate dereferences `metadata.documentCount` on the shared collection
object, which has no `metadata` property, so the wired system throws a
`TypeError` there; a literal `null` likewise throws on `value.$gte` since
`typeof null === 'object'`.  Every other criterion (including `{$gt: v}` or
`{$lt: v}` alone) becomes an EQUALITY plan whose `value` is the raw
criterion. -/
def createQueryPlan (db : Db) (coll : String) : QFilter → Except DbErr Plan
  | [] => .ok {}
  | (field, crit) :: rest =>
    if startsWithDollar field then createQueryPlan db coll rest
    else if hasIndexIM db coll field then
      match crit with
      | .ops cs =>
        if cs.any (fun p => p.1 == .gte) || cs.any (fun p => p.1 == .lte) then
          .error .typeError
        else .ok { ptype := .indexEquality, field := field, pvalue := some (.ops cs) }
      | .lit v =>
        if v == .null then .error .typeError
        else .ok { ptype := .indexEquality, field := field, pvalue := some (.lit v) }
    else createQueryPlan db coll rest

/-- `QueryEngine._executePlan(collectionName, plan)`: the equality path asks
the index manager for one document id (`if (docId)` — `null` and the empty
string are falsy) and materialises it from storage; otherwise a full scan.
The range path is unreachable in the wired system (plan creation throws
first). -/
def executePlan (db : Db) (coll : String) (p : Plan) : List Doc :=
  match p.ptype with
  | .indexEquality =>
    match lookupEquality db coll p.field (critKey p.pvalue) with
    | some docId =>
      if docId == "" then []
      else
        match storageGet db coll docId with
        | some d => [d]
        | none => []
    | none => []
  | .indexRange => []
  | .fullScan => storageScan db coll

/-- `QueryEngine.execute(collectionName, filter, options)`: plan, execute,
re-filter every candidate against the full filter, then sort, skip, limit
and project — each stage guarded by the truthiness of its option. -/
def qexecute (db : Db) (coll : String) (f : QFilter) (o : QOptions) :
    Except DbErr (List Doc) := do
  let plan ← createQueryPlan db coll f
  let results := executePlan db coll plan
  let results := results.filter (fun d => matchesFilter d f)
  let results := if o.sort.isSome then applySort (o.sort.getD []) results else results
  let results := if natTruthy o.skip then results.drop (o.skip.getD 0) else results
  let results := if natTruthy o.limit then results.take (o.limit.getD 0) else results
  let results := if o.select.isSome then results.map (applyProjection (o.select.getD [])) else results
  pure results

/-- `QueryEngine.count(collectionName, filter)`: run the pipeline projecting
only `_id` and count the results. -/
def qcount (db : Db) (coll : String) (f : QFilter) : Except DbErr Nat :=
  (qexecute db coll f { select := some ["_id"] }).map List.length

/-- JSON.stringify of a filter operand. -/
def JVal.stringify : JVal → String
  | .null => "null"
  | .bool b => if b then "true" else "false"
  | .num n => toString n
  | .str s => "\"" ++ s ++ "\""
  | .obj => "\x7b\x7d"

/-- The `$`-operator names, as JSON.stringify renders criterion keys. -/
def COp.opName : COp → String
  | .eq => "$eq"
  | .ne => "$ne"
  | .gt => "$gt"
  | .gte => "$gte"
  | .lt => "$lt"
  | .lte => "$lte"

/-- JSON.stringify of a criterion. -/
def Criterion.stringify : Criterion → String
  | .lit v => v.stringify
  | .ops cs =>
    "\x7b" ++ String.intercalate ","
      (cs.map (fun p => "\"" ++ p.1.opName ++ "\":" ++ p.2.stringify)) ++ "\x7d"

/-- JSON.stringify of a whole filter document. -/
def QFilter.stringify (f : QFilter) : String :=
  "\x7b" ++ String.intercalate ","
    (f.map (fun p => "\"" ++ p.1 ++ "\":" ++ p.2.stringify)) ++ "\x7d"

/-- The result-cache key `GhostDB.find` builds:
`find:<collection>:<JSON.stringify(query)>`.  The options object is NOT part
of the key. -/
def cacheKey (coll : String) (q : QFilter) : String :=
  "find:" ++ coll ++ ":" ++ QFilter.stringify q

/-- `GhostDB.getCollection(name)`: throws when the collection is missing. -/
def Db.getCollectionD (db : Db) (coll : String) : Except DbErr (List (String × Doc)) :=
  match db.collections.find? (fun p => p.1 == coll) with
  | none => .error .missingCollection
  | some (_, data) => .ok data

/-- `GhostDB.createCollection(name)`: the collection object (shared with the
memory engine) starts with empty data. -/
def Db.createCollection (db : Db) (coll : String) : Db :=
  { db with collections := db.collections ++ [(coll, [])] }

/-- Store a document under its id (`collection.data.set`). -/
def Db.putDoc (db : Db) (coll id : String) (d : Doc) : Db :=
  { db with
    collections := db.collections.map (fun p =>
      if p.1 == coll then (p.1, mapSet p.2 id d) else p) }

/-- `GhostDB.insert(collectionName, document)`: the generated id is the
explicit `id` argument (the source draws it from time and randomness); the
document gains `id` and the `_id` alias, is stored in the collection map,
every index is updated, and the cache entry `<collection>:<id>` — the
`findById` key, not any `find:` key — is invalidated.  Schema validation and
timestamps are not modelled (no claim touches them). -/
def GhostDB.insert (db : Db) (coll id : String) (body : Doc) : Except DbErr Db := do
  let _ ← db.getCollectionD coll
  let document := body ++ [("id", .str id), ("_id", .str id)]
  let db := db.putDoc coll id document
  let db ←
    match updateIndexesDb db coll document .insertOp none with
    | some db' => .ok db'
    | none => .error .fuelOut
  match db.cache with
  | some c => .ok { db with cache := some (c.invalidate (coll ++ ":" ++ id)) }
  | none => .ok db

/-- `GhostDB.find(collectionName, query, options)`: consult the cache first
(an empty cached array is still truthy and is returned as a hit), otherwise
check the collection exists, run the query engine and cache the
POST-options result list under the options-independent key. -/
def GhostDB.find (db : Db) (coll : String) (q : QFilter) (o : QOptions) :
    Except DbErr (List Doc × Db) :=
  match db.cache with
  | some c =>
    match c.cget (cacheKey coll q) with
    | (some r, c') => .ok (r, { db with cache := some c' })
    | (none, c') =>
      match db.getCollectionD coll with
      | .error e => .error e
      | .ok _ =>
        match qexecute db coll q o with
        | .error e => .error e
        | .ok results =>
          .ok (results, { db with cache := some (c'.cset (cacheKey coll q) results) })
  | none =>
    match db.getCollectionD coll with
    | .error e => .error e
    | .ok _ =>
      match qexecute db coll q o with
      | .error e => .error e
      | .ok results => .ok (results, db)

/-! ## Concrete scenario states used by the claims -/

/-- A fresh database with no collections and the cache disabled. -/
def dbEmpty : Db :=
  { collections := [], indexes := [], cache := none }

/-- A fresh `CacheLayer` with the default `cacheSize` of 100. -/
def freshCache : Cache :=
  { maxSize := 100, cache := [], accessOrder := [] }

/-- C1 scenario: a B+ tree index bundle on field `f` of collection `C`, then
two documents inserted through `GhostDB.insert` that share the field value
`f = 1` (document ids `"a"` then `"b"`). -/
def c1Db : Except DbErr Db := do
  let db := dbEmpty.createCollection "C"
  let db ← createIndexDb db "C" "f" { idxType := .btree }
  let db ← GhostDB.insert db "C" "a" [("f", .num 1)]
  GhostDB.insert db "C" "b" [("f", .num 1)]

/-- C2 scenario: an index on field `u` created with `unique := true`, then
two documents inserted with the same value `u = "a"`. -/
def c2Db : Except DbErr Db := do
  let db := dbEmpty.createCollection "C"
  let db ← createIndexDb db "C" "u" { idxType := .btree, unique := true }
  let db ← GhostDB.insert db "C" "a1" [("u", .str "a")]
  GhostDB.insert db "C" "a2" [("u", .str "a")]

/-- C3 scenario: with the cache enabled (the default configuration), run
`find C {}` (caching its empty result), insert a document, run the same
`find` again, and also ask the query engine directly for the post-insert
truth. -/
def c3Run : Except DbErr (List Doc × List Doc × List Doc) := do
  let db0 : Db := { collections := [("C", [])], indexes := [], cache := some freshCache }
  let (r1, db1) ← GhostDB.find db0 "C" [] {}
  let db2 ← GhostDB.insert db1 "C" "x" [("a", .num 1)]
  let (r2, _) ← GhostDB.find db2 "C" [] {}
  let fresh ← qexecute db2 "C" [] {}
  pure (r1, r2, fresh)

/-- C4 scenario: an ordered index on field `f`, one document with `f = 5`. -/
def c4Db : Except DbErr Db := do
  let db := dbEmpty.createCollection "C"
  let db ← createIndexDb db "C" "f" { idxType := .btree }
  GhostDB.insert db "C" "x1" [("f", .num 5)]

/-- C4 filter: `{f: {$gt: 3}}` — range operators but neither `$gte` nor
`$lte`. -/
def c4Filter : QFilter := [("f", .ops [(.gt, .num 3)])]

/-- Whether a node is a leaf. -/
def BTNode.isLeafB : BTNode → Bool
  | .leaf _ => true
  | .internal _ _ => false

/-- C5 scenario: an order-4 B+ tree after inserting keys 1, 2, 3. -/
def c5T3 : BTree :=
  (((BTree.new 4).insert (.num 1) "a").insert (.num 2) "b").insert (.num 3) "c"

/-- C6 scenario: a capacity-4 `HashIndex` holding keys `"a"`, `"c"`, `"e"`
(FNV-1a ideal buckets 0, 2, 0), a state that does not contain key `"i"`
(ideal bucket 0). -/
def c6Pre : Option HashIdx := do
  let t ← (HashIdx.new 4).insert (.str "a") "va"
  let t ← t.insert (.str "c") "vc"
  t.insert (.str "e") "ve"

/-- C7 scenario: the same capacity-4 three-entry table, built independently
so the two claims share no definition. -/
def c7Pre : Option HashIdx := do
  let t ← (HashIdx.new 4).insert (.str "a") "va"
  let t ← t.insert (.str "c") "vc"
  t.insert (.str "e") "ve"

/-- C7 witness state: the table above plus key `"b"` — four entries in four
buckets, load factor 1. -/
def c7T4 : HashIdx :=
  ((c7Pre.bind (fun t => t.insert (.str "b") "vb"))).getD (HashIdx.new 4)

/-- The result of inserting a fifth key into `c7T4` (forcing the resize). -/
def c7T8 : HashIdx :=
  (c7T4.insert (.str "d") "vd").getD (HashIdx.new 4)

/-- C8 scenario: an order-4 tree holding the single pair (1, "a"). -/
def c8Tree : BTree := (BTree.new 4).insert (.num 1) "a"

/-! ## Claim theorems (evaluative) -/

/-- C1 (code bug): after two live documents with `f = 1` are inserted, the
index bundle on `f` holds the single pair (1, "b") — `BPlusTree.insert`
overwrote document "a"'s entry — while the live documents contribute the two
pairs (1, "a") and (1, "b"); the claimed one-entry-per-document invariant is
violated. -/
theorem c1_duplicate_value_overwrites_index_entry :
    c1Db.map (fun db => (db.bundleOf "C" "f").map (fun b => b.btree.map BTree.toList))
      = .ok (some (some [(.num 1, "b")])) ∧
    c1Db.map (fun db => (storageScan db "C").map (fun d => ((d.get "f").getD .null, d.docId)))
      = .ok [(.num 1, "a"), (.num 1, "b")] := by
  constructor <;> rfl

/-- C2 (code bug): the second insert of `u = "a"` under a `unique := true`
index succeeds — the flag is stored in the bundle but never read — and the
subsequent `count(C, {})` is 2, not 1, with no DuplicateKey error anywhere. -/
theorem c2_unique_flag_not_enforced :
    c2Db.map (fun db => (db.bundleOf "C" "u").map (fun b => b.unique)) = .ok (some true) ∧
    c2Db.bind (fun db => qcount db "C" []) = .ok 2 := by
  constructor <;> rfl

/-- C3 (code bug): with the cache enabled (the default), `find C {}` caches
`[]` under `find:C:{}`; the subsequent insert invalidates only `C:x`, so the
second identical `find` returns the stale `[]` even though the query engine,
asked directly, returns the newly inserted live document. -/
theorem c3_insert_invisible_through_cache :
    c3Run = .ok ([], [], [[("a", .num 1), ("id", .str "x"), ("_id", .str "x")]]) := by
  rfl

/-- C4 (code bug): for the filter `{f: {$gt: 3}}` on an indexed field the
planner produces an EQUALITY plan (only `$gte`/`$lte` select the range
path), the hash lookup of the criterion object misses, and `execute` returns
no documents — although the live document `f = 5` matches the filter. -/
theorem c4_gt_filter_planned_as_equality_and_returns_empty :
    (c4Db.bind (fun db => createQueryPlan db "C" c4Filter)).map Plan.ptype
      = .ok .indexEquality ∧
    c4Db.bind (fun db => qexecute db "C" c4Filter {}) = .ok [] ∧
    c4Db.map (fun db => (storageScan db "C").filter (fun d => matchesFilter d c4Filter))
      = .ok [[("f", .num 5), ("id", .str "x1"), ("_id", .str "x1")]] := by
  refine ⟨by decide, by decide, by decide⟩

/-- C5 counterexample: with order 4, the third insert leaves the tree with 3
keys in total — fewer than `order` — yet the leaf was split: the root is an
internal node `[2]` over the leaves `[1]` and `[2, 3]`.  The claim predicts
no split before a leaf reaches `order` keys. -/
theorem c5_split_below_order_counterexample :
    c5T3.order = 4 ∧ c5T3.toList.length = 3 ∧ c5T3.root.isLeafB = false ∧
    c5T3.root = .internal [.num 2] [.leaf [(.num 1, "a")], .leaf [(.num 2, "b"), (.num 3, "c")]] := by
  refine ⟨rfl, rfl, rfl, rfl⟩

/-- C6 (code bug): in the capacity-4 state `S = c6Pre`, key `"i"` is absent;
inserting `"i"` displaces `"c"` (Robin Hood steal) but stores `"i"` with a
stale probe length of 0 and leaves `maxProbeLength` at 1, so the subsequent
`delete("i")` gives up after probe length 1, returns `false`, and leaves the
table exactly as it was AFTER the insert — which differs from `S`
bucket-for-bucket (buckets 2 and 3). -/
theorem c6_insert_delete_not_restored :
    (c6Pre.map (fun t => t.containsKey (.str "i"))) = some false ∧
    ((do
        let t ← c6Pre
        let t1 ← t.insert (.str "i") "vi"
        (t1.delete (.str "i")).map (fun r => (r.1, decide (r.2 = t1)))) :
      Option (Bool × Bool)) = some (false, true) ∧
    ((do
        let t ← c6Pre
        let t1 ← t.insert (.str "i") "vi"
        pure (decide (t1.buckets = t.buckets))) : Option Bool) = some false := by
  refine ⟨rfl, by decide, by decide⟩

/-- C7 counterexample: from the three-entry capacity-4 table (load factor
exactly 0.75), the next insert raises the load factor to 1 — above 0.75 —
yet no rehash happens: the capacity stays 4, because the source checks
`size / capacity > 0.75` on the PRE-insert size.  The claim predicts this
insert rehashes into capacity 8. -/
theorem c7_resize_check_counterexample :
    (c7Pre.map (fun t => (t.size, t.capacity))) = some (3, 4) ∧
    ((c7Pre.bind (fun t => t.insert (.str "b") "vb")).map
        (fun t => (t.capacity, decide (4 * t.size > 3 * t.capacity))))
      = some (4, true) := by
  refine ⟨rfl, by decide⟩

/-- `rqLeaf` emits nothing and never stops when both bounds are absent:
every comparison against `undefined` is false. -/
theorem rqLeaf_no_bounds (kvs : List (JVal × String)) :
    rqLeaf none none kvs = ([], false) := by
  induction kvs with
  | nil => rfl
  | cons p rest ih =>
    obtain ⟨k, v⟩ := p
    simp [rqLeaf, jsGtR, jsGeR, ih]

/-- `rqChain` over any leaf chain is empty when both bounds are absent. -/
theorem rqChain_no_bounds (chain : List (List (JVal × String))) :
    rqChain none none chain = [] := by
  induction chain with
  | nil => rfl
  | cons kvs rest ih =>
    simp [rqChain, rqLeaf_no_bounds, ih]

/-- C8 (amended): a range query with BOTH bounds absent returns the empty
list for every tree — `keys[i] > undefined` never stops the walk and
`keys[i] >= undefined` never admits a pair — not the full ordered
iteration. -/
theorem c8_unbounded_range_scan_empty (t : BTree) :
    t.rangeQuery none none = [] := by
  unfold BTree.rangeQuery
  cases findLeafChain t.root none with
  | nil => rfl
  | cons first rest => exact rqChain_no_bounds _

/-- C8 counterexample: the tree holding exactly the pair (1, "a") answers
the unbounded range scan with the empty list, while the claimed full
iteration would be the one-element list. -/
theorem c8_unbounded_range_scan_counterexample :
    c8Tree.toList = [(.num 1, "a")] ∧ c8Tree.rangeQuery none none = [] := by
  refine ⟨rfl, rfl⟩

/-- C10 (confirmed): `execute` treats `limit: 0` exactly like an absent
limit — the stage is guarded by JavaScript truthiness — and `skip: 0`
exactly like an absent skip, so a limit of 0 returns every document that
survives the earlier stages rather than none. -/
theorem c10_limit_zero_means_no_limit (db : Db) (coll : String) (f : QFilter)
    (o : QOptions) :
    qexecute db coll f { o with limit := some 0 } = qexecute db coll f { o with limit := none } ∧
    qexecute db coll f { o with skip := some 0 } = qexecute db coll f { o with skip := none } :=
  ⟨rfl, rfl⟩

/-- The Robin Hood probe loop never changes the capacity and grows `size` by
at most one (only the empty-bucket placement increments it). -/
theorem insertLoop_capacity (fuel : Nat) :
    ∀ (t : HashIdx) (e : HBEntry) (psl idx : Nat) (t' : HashIdx),
    insertLoop fuel t e psl idx = some t' →
    t'.capacity = t.capacity ∧ t'.size ≤ t.size + 1 := by
  induction fuel with
  | zero => intro t e psl idx t' h; simp [insertLoop] at h
  | succ fuel ih =>
    intro t e psl idx t' h
    unfold insertLoop at h
    cases hb : t.buckets.getD idx [] with
    | nil =>
      rw [hb] at h
      simp only [Option.some.injEq] at h
      subst h
      exact ⟨rfl, by simp⟩
    | cons e0 rest =>
      rw [hb] at h
      simp only [] at h
      cases hf : (e0 :: rest).findIdx? (fun e' => jsStrictEq e'.key e.key) with
      | some i =>
        rw [hf] at h
        simp only [Option.some.injEq] at h
        subst h
        exact ⟨rfl, by simp⟩
      | none =>
        rw [hf] at h
        simp only [] at h
        by_cases hp : psl > e0.psl
        · rw [if_pos hp] at h
          have := ih _ _ _ _ _ h
          simpa using this
        · rw [if_neg hp] at h
          exact ih _ _ _ _ _ h

/-- An insert that begins at load factor at most 0.75 skips `_resize`: the
capacity is unchanged and `size` grows by at most one. -/
theorem insertHI_no_resize (fuel : Nat) (t : HashIdx) (k : JVal) (v : String)
    (t' : HashIdx) (hload : ¬ 4 * t.size > 3 * t.capacity)
    (h : insertHI (fuel + 1) t k v = some t') :
    t'.capacity = t.capacity ∧ t'.size ≤ t.size + 1 := by
  unfold insertHI at h
  rw [if_neg hload] at h
  simp only [Option.pure_def, Option.bind_eq_bind, Option.some_bind] at h
  exact insertLoop_capacity _ _ _ _ _ _ h

/-- The `_resize` re-insertion fold keeps the (already doubled) capacity as
long as the running load factor stays at or below 0.75 throughout, which the
entry budget `4 * (size + pending) ≤ 3 * capacity + 4` guarantees. -/
theorem reinsert_fold_capacity (fuel : Nat) (es : List HBEntry) :
    ∀ (t0 t1 : HashIdx),
    4 * (t0.size + es.length) ≤ 3 * t0.capacity + 4 →
    es.foldlM (fun acc e => insertHI fuel acc e.key e.value) t0 = some t1 →
    t1.capacity = t0.capacity := by
  induction es with
  | nil =>
    intro t0 t1 _ h
    simp only [List.foldlM_nil, Option.pure_def, Option.some.injEq] at h
    rw [h]
  | cons e es ih =>
    intro t0 t1 hb h
    simp only [List.foldlM_cons] at h
    cases hi : insertHI fuel t0 e.key e.value with
    | none => rw [hi] at h; simp at h
    | some tm =>
      rw [hi] at h
      simp only [Option.bind_eq_bind, Option.some_bind] at h
      cases fuel with
      | zero => simp [insertHI] at hi
      | succ f =>
        have hload : ¬ 4 * t0.size > 3 * t0.capacity := by
          simp only [List.length_cons] at hb
          omega
        obtain ⟨hcap, hsz⟩ := insertHI_no_resize f t0 e.key e.value tm hload hi
        have hb' : 4 * (tm.size + es.length) ≤ 3 * tm.capacity + 4 := by
          rw [hcap]
          simp only [List.length_cons] at hb
          omega
        rw [ih tm t1 hb' h, hcap]

/-- C7 (amended): `HashIndex.insert` doubles the capacity exactly when the
load factor BEFORE the insert exceeds 0.75 (`size / capacity > 0.75` checked
on entry, i.e. `4 * size > 3 * capacity`); otherwise the capacity is
untouched — in particular the insert that pushes the load factor above 0.75
does not rehash, and the following insert does.  The hypothesis bounds the
stored entries by the capacity (true of every reachable table, which has at
most one entry per bucket), which keeps the re-insertions of `_resize` below
the load threshold of the doubled table. -/
theorem c7_resize_iff_preinsert_load (t t' : HashIdx) (k : JVal) (v : String)
    (hentries : t.allEntries.length ≤ t.capacity)
    (h : t.insert k v = some t') :
    t'.capacity = if 4 * t.size > 3 * t.capacity then 2 * t.capacity else t.capacity := by
  unfold HashIdx.insert insertHI at h
  by_cases hc : 4 * t.size > 3 * t.capacity
  · rw [if_pos hc] at h ⊢
    simp only [Option.bind_eq_bind] at h
    cases hf : t.allEntries.foldlM (fun acc e => insertHI 1 acc e.key e.value)
        { capacity := 2 * t.capacity, size := 0, maxProbeLength := 0,
          buckets := List.replicate (2 * t.capacity) [] } with
    | none => rw [hf] at h; simp at h
    | some t1 =>
      rw [hf] at h
      simp only [Option.some_bind] at h
      have hcap1 : t1.capacity = 2 * t.capacity := by
        have := reinsert_fold_capacity 1 t.allEntries _ t1 (by simp; omega) hf
        simpa using this
      rw [← hcap1]
      exact (insertLoop_capacity _ _ _ _ _ _ h).1
  · rw [if_neg hc] at h ⊢
    simp only [Option.pure_def, Option.bind_eq_bind, Option.some_bind] at h
    exact (insertLoop_capacity _ _ _ _ _ _ h).1

/-- Witness for the amended C7 theorem: the four-entry capacity-4 table
(load factor 1 > 0.75) really is resized to capacity 8 by the next insert. -/
theorem c7_resize_iff_preinsert_load_witness :
    c7T8.capacity = if 4 * c7T4.size > 3 * c7T4.capacity then 2 * c7T4.capacity
      else c7T4.capacity :=
  c7_resize_iff_preinsert_load c7T4 c7T8 (.str "d") "vd" (by decide) (by decide)

/-- `Map.set` makes the key immediately retrievable. -/
theorem mapSet_find {α : Type} (l : List (String × α)) (k : String) (v : α) :
    ((mapSet l k v).find? (fun p => p.1 == k)).map (fun p => p.2) = some v := by
  induction l with
  | nil => simp [mapSet]
  | cons p rest ih =>
    obtain ⟨k', v'⟩ := p
    by_cases hk : k' == k
    · simp [mapSet, hk]
    · simp only [mapSet, hk]
      rw [if_neg (by simp [hk])]
      simpa [List.find?, hk] using ih

/-- `CacheLayer.set` makes the key hit on the next `get`, whatever eviction
did before the store. -/
theorem clookup_cset (c : Cache) (k : String) (v : List Doc) :
    (c.cset k v).clookup k = some v := by
  unfold Cache.cset Cache.clookup Cache.updateAccessOrder
  exact mapSet_find _ k v

/-- C9 (confirmed): with the cache enabled, the key of a cached `find`
result is built from the collection name and the filter only, so a second
`find` with the same filter and NO intervening mutation returns the first
call's (post-options) result list no matter which options it passes. -/
theorem c9_find_cache_key_ignores_options (db db1 : Db) (c : Cache) (coll : String)
    (q : QFilter) (o1 o2 : QOptions) (r1 : List Doc)
    (hc : db.cache = some c)
    (h1 : GhostDB.find db coll q o1 = .ok (r1, db1)) :
    ∃ db2, GhostDB.find db1 coll q o2 = .ok (r1, db2) := by
  unfold GhostDB.find at h1
  rw [hc] at h1
  simp only [] at h1
  unfold Cache.cget at h1
  cases hg : c.clookup (cacheKey coll q) with
  | some r =>
    rw [hg] at h1
    simp only [Except.ok.injEq, Prod.mk.injEq] at h1
    obtain ⟨hr, hdb⟩ := h1
    subst hr hdb
    refine ⟨{ db with cache := some ((c.updateAccessOrder (cacheKey coll q)).updateAccessOrder (cacheKey coll q)) }, ?_⟩
    unfold GhostDB.find Cache.cget
    simp only []
    rw [show (c.updateAccessOrder (cacheKey coll q)).clookup (cacheKey coll q)
        = some r from hg]
  | none =>
    rw [hg] at h1
    simp only [] at h1
    cases hcol : db.getCollectionD coll with
    | error e => rw [hcol] at h1; simp at h1
    | ok data =>
      rw [hcol] at h1
      cases hex : qexecute db coll q o1 with
      | error e => rw [hex] at h1; simp at h1
      | ok results =>
        rw [hex] at h1
        simp only [Except.ok.injEq, Prod.mk.injEq] at h1
        obtain ⟨hr, hdb⟩ := h1
        subst hr hdb
        refine ⟨Db.mk db.collections db.indexes
          (some ((c.cset (cacheKey coll q) results).updateAccessOrder (cacheKey coll q))), ?_⟩
        unfold GhostDB.find Cache.cget
        simp only []
        rw [show (c.cset (cacheKey coll q) results).clookup (cacheKey coll q)
            = some results from clookup_cset c _ results]

/-- C9 witness state: a cached database with one collection holding one
document. -/
def c9Db : Db :=
  { collections := [("C", [("x", [("a", .num 1), ("id", .str "x"), ("_id", .str "x")])])],
    indexes := [], cache := some freshCache }

/-- The first `find` of the C9 witness (no options). -/
def c9FindRes : Except DbErr (List Doc × Db) := GhostDB.find c9Db "C" [] {}

/-- Result list of the first C9 `find`. -/
def c9R1 : List Doc := (c9FindRes.toOption.map (fun p => p.1)).getD []

/-- Database state after the first C9 `find`. -/
def c9Db1 : Db := (c9FindRes.toOption.map (fun p => p.2)).getD c9Db

/-- Witness for C9: after a concrete first `find C {}` the second `find`
with different options (`limit: 5`) returns the same cached list. -/
theorem c9_find_cache_key_ignores_options_witness :
    ∃ db2, GhostDB.find c9Db1 "C" [] { limit := some 5 } = .ok (c9R1, db2) :=
  c9_find_cache_key_ignores_options c9Db c9Db1 freshCache "C" [] {} { limit := some 5 }
    c9R1 rfl rfl

/-- Ordered insertion into a leaf's pair list: place the new pair before the
first key not less than it (the reference meaning of a binary insert into a
sorted leaf, against which the source's `findKeyPosition`-and-splice leaf
insert is verified). -/
def ordInsert (k : JVal) (v : String) : List (JVal × String) → List (JVal × String)
  | [] => [(k, v)]
  | (k', v') :: rest =>
    if jsLt k' k then (k', v') :: ordInsert k v rest else (k, v) :: (k', v') :: rest

/-- Key access through the pair list and through the projected key list
agree (both default to `null` out of range). -/
theorem getD_map_fst (kvs : List (JVal × String)) (i : Nat) :
    (kvs.map Prod.fst).getD i .null = (kvs.getD i (.null, "")).1 := by
  induction kvs generalizing i with
  | nil => simp [List.getD]
  | cons p rest ih =>
    cases i with
    | zero => simp [List.getD]
    | succ i => simpa [List.getD] using ih i

/-- Splicing a pair into position `pos` coincides with ordered insertion
when everything before `pos` is less than the key and nothing from `pos` on
is. -/
theorem splice_eq_ordInsert (k : JVal) (v : String) :
    ∀ (kvs : List (JVal × String)) (pos : Nat),
    pos ≤ kvs.length →
    (∀ i, i < pos → jsLt (kvs.getD i (.null, "")).1 k = true) →
    (∀ i, pos ≤ i → i < kvs.length → jsLt (kvs.getD i (.null, "")).1 k = false) →
    kvs.take pos ++ (k, v) :: kvs.drop pos = ordInsert k v kvs := by
  intro kvs
  induction kvs with
  | nil =>
    intro pos hpos _ _
    have : pos = 0 := by simpa using hpos
    subst this
    simp [ordInsert]
  | cons p rest ih =>
    intro pos hpos hlt hge
    cases pos with
    | zero =>
      have h0 : jsLt p.1 k = false := by
        simpa [List.getD] using hge 0 (Nat.zero_le 0) (by simp)
      simp [ordInsert, h0]
    | succ pos' =>
      have hp : jsLt p.1 k = true := by
        simpa [List.getD] using hlt 0 (Nat.succ_pos pos')
      simp only [List.take_succ_cons, List.drop_succ_cons, List.cons_append, ordInsert, hp,
        if_true]
      have := ih pos' (by simpa using hpos)
        (fun i hi => by simpa [List.getD] using hlt (i + 1) (by omega))
        (fun i hi hilen => by simpa [List.getD] using hge (i + 1) (by omega) (by simpa using hilen))
      rw [this]

/-- Characterisation of the binary-search loop `findKeyPosGo` on a key list
whose `< key` predicate is downward closed (true of any sorted list): the
returned position separates the keys below the probe from the rest. -/
theorem findKeyPosGo_char (keys : List JVal) (k : JVal)
    (hdc : ∀ i j, i ≤ j → j < keys.length →
      jsLt (keys.getD j .null) k = true → jsLt (keys.getD i .null) k = true) :
    ∀ (fuel left right : Nat),
    right ≤ keys.length → left ≤ right → right - left ≤ fuel →
    (∀ i, i < left → jsLt (keys.getD i .null) k = true) →
    (∀ i, right ≤ i → i < keys.length → jsLt (keys.getD i .null) k = false) →
    (∀ i, i < findKeyPosGo keys (some k) fuel left right →
        jsLt (keys.getD i .null) k = true) ∧
    (∀ i, findKeyPosGo keys (some k) fuel left right ≤ i → i < keys.length →
        jsLt (keys.getD i .null) k = false) ∧
    findKeyPosGo keys (some k) fuel left right ≤ keys.length := by
  intro fuel
  induction fuel with
  | zero =>
    intro left right hr hlr hf hbelow habove
    have heq : left = right := by omega
    subst heq
    exact ⟨hbelow, habove, by simp only [findKeyPosGo]; omega⟩
  | succ fuel ih =>
    intro left right hr hlr hf hbelow habove
    unfold findKeyPosGo
    by_cases hlt : left < right
    · rw [if_pos hlt]
      simp only []
      have hmid1 : left ≤ (left + right) / 2 := by omega
      have hmid2 : (left + right) / 2 < right := by omega
      cases hp : jsLt (keys.getD ((left + right) / 2) .null) k with
      | true =>
        rw [show jsLtR (keys.getD ((left + right) / 2) .null) (some k)
            = true from hp]
        exact ih ((left + right) / 2 + 1) right hr (by omega) (by omega)
          (fun i hi => by
            by_cases hcase : i < left
            · exact hbelow i hcase
            · exact hdc i ((left + right) / 2) (by omega) (by omega) hp)
          habove
      | false =>
        rw [show jsLtR (keys.getD ((left + right) / 2) .null) (some k)
            = false from hp]
        exact ih left ((left + right) / 2) (by omega) (by omega) (by omega)
          hbelow
          (fun i hi hilen => by
            by_cases hcase : right ≤ i
            · exact habove i hcase hilen
            · cases hq : jsLt (keys.getD i .null) k with
              | false => rfl
              | true =>
                have := hdc ((left + right) / 2) i hi (by omega) hq
                rw [this] at hp
                cases hp)
    · rw [if_neg hlt]
      have heq : left = right := by omega
      subst heq
      exact ⟨hbelow, habove, by omega⟩

/-- Characterisation of `findKeyPosition`: on a downward-closed key list it
returns the lower bound of the probe key. -/
theorem findKeyPosition_char (keys : List JVal) (k : JVal)
    (hdc : ∀ i j, i ≤ j → j < keys.length →
      jsLt (keys.getD j .null) k = true → jsLt (keys.getD i .null) k = true) :
    (∀ i, i < findKeyPosition keys (some k) → jsLt (keys.getD i .null) k = true) ∧
    (∀ i, findKeyPosition keys (some k) ≤ i → i < keys.length →
        jsLt (keys.getD i .null) k = false) ∧
    findKeyPosition keys (some k) ≤ keys.length := by
  unfold findKeyPosition
  exact findKeyPosGo_char keys k hdc (keys.length + 1) 0 keys.length (le_refl _)
    (Nat.zero_le _) (by omega) (fun i hi => absurd hi (Nat.not_lt_zero i))
    (fun i hi hilen => absurd hilen (by omega))

/-- The leaf pair list corresponding to integer keys. -/
def intLeaf (ks : List (Int × String)) : List (JVal × String) :=
  ks.map (fun p => (JVal.num p.1, p.2))

/-- Key projection of `intLeaf` through `getD`. -/
theorem intLeaf_getD_key (ks : List (Int × String)) :
    ∀ i, i < ks.length →
      ((intLeaf ks).map Prod.fst).getD i .null = .num ((ks.getD i (0, "")).1) := by
  induction ks with
  | nil => intro i hi; cases hi
  | cons p rest ih =>
    intro i hi
    cases i with
    | zero => simp [intLeaf, List.getD]
    | succ i => simpa [intLeaf, List.getD] using ih i (by simpa using hi)

/-- Strict sortedness transported to `getD` indexing. -/
theorem chain'_getD_lt (ks : List (Int × String))
    (hs : List.Chain' (fun a b => a.1 < b.1) ks) :
    ∀ i j, i < j → j < ks.length → (ks.getD i (0, "")).1 < (ks.getD j (0, "")).1 := by
  haveI : IsTrans (Int × String) (fun a b => a.1 < b.1) :=
    ⟨fun _ _ _ h1 h2 => lt_trans h1 h2⟩
  have hpw : ks.Pairwise (fun a b => a.1 < b.1) := List.chain'_iff_pairwise.mp hs
  intro i j hij hj
  have hi : i < ks.length := lt_trans hij hj
  rw [List.getD_eq_getElem ks (0, "") hi, List.getD_eq_getElem ks (0, "") hj]
  exact List.pairwise_iff_getElem.mp hpw i j hi hj hij

/-- C5 (amended): inserting a fresh key into a root leaf with strictly
sorted (integer) keys splices it in key order; the leaf splits exactly when
it comes to hold at least `order - 1` keys (the source's `isFull()`), and
then exactly at the midpoint `floor(length / 2)`: the root becomes one
separator — the FIRST key of the right half — over the left and right
leaves, and the leaf chain lists the right leaf immediately after the left
one.  Below `order - 1` keys no split happens. -/
theorem c5_leaf_split_at_order_minus_one (ord : Nat) (ks : List (Int × String))
    (k : Int) (v : String)
    (hsorted : List.Chain' (fun a b => a.1 < b.1) ks)
    (hfresh : ∀ p ∈ ks, p.1 ≠ k) :
    (ks.length + 1 < ord - 1 →
      (BTree.insert ⟨ord, .leaf (intLeaf ks)⟩ (.num k) v).root
        = .leaf (ordInsert (.num k) v (intLeaf ks))) ∧
    (ks.length + 1 = ord - 1 →
      (BTree.insert ⟨ord, .leaf (intLeaf ks)⟩ (.num k) v).root
        = .internal
            [(((ordInsert (.num k) v (intLeaf ks)).drop ((ks.length + 1) / 2)).headD
                (.null, "")).1]
            [.leaf ((ordInsert (.num k) v (intLeaf ks)).take ((ks.length + 1) / 2)),
             .leaf ((ordInsert (.num k) v (intLeaf ks)).drop ((ks.length + 1) / 2))] ∧
      (BTree.insert ⟨ord, .leaf (intLeaf ks)⟩ (.num k) v).root.leafList
        = [(ordInsert (.num k) v (intLeaf ks)).take ((ks.length + 1) / 2),
           (ordInsert (.num k) v (intLeaf ks)).drop ((ks.length + 1) / 2)]) := by
  have hdc : ∀ i j, i ≤ j → j < ((intLeaf ks).map Prod.fst).length →
      jsLt (((intLeaf ks).map Prod.fst).getD j .null) (.num k) = true →
      jsLt (((intLeaf ks).map Prod.fst).getD i .null) (.num k) = true := by
    intro i j hij hjlen hj
    have hlen : ((intLeaf ks).map Prod.fst).length = ks.length := by simp [intLeaf]
    rw [hlen] at hjlen
    rcases Nat.eq_or_lt_of_le hij with rfl | hlt2
    · exact hj
    · rw [intLeaf_getD_key ks j hjlen] at hj
      rw [intLeaf_getD_key ks i (lt_trans hlt2 hjlen)]
      have hstep := chain'_getD_lt ks hsorted i j hlt2 hjlen
      simp only [jsLt, decide_eq_true_eq] at hj ⊢
      omega
  obtain ⟨hlt, hge, hle⟩ := findKeyPosition_char ((intLeaf ks).map Prod.fst) (.num k) hdc
  have hmaplen : ((intLeaf ks).map Prod.fst).length = (intLeaf ks).length := by simp
  have hsplice : (intLeaf ks).take (findKeyPosition ((intLeaf ks).map Prod.fst) (some (.num k)))
      ++ (JVal.num k, v) :: (intLeaf ks).drop (findKeyPosition ((intLeaf ks).map Prod.fst) (some (.num k)))
      = ordInsert (.num k) v (intLeaf ks) := by
    apply splice_eq_ordInsert (.num k) v (intLeaf ks) _ (hmaplen ▸ hle)
    · intro i hi
      rw [← getD_map_fst]
      exact hlt i hi
    · intro i hi hilen
      rw [← getD_map_fst]
      exact hge i hi (by simpa [intLeaf] using hilen)
  have hilen : (intLeaf ks).length = ks.length := by simp [intLeaf]
  have hlen' : (ordInsert (.num k) v (intLeaf ks)).length = ks.length + 1 := by
    rw [← hsplice]
    have hple : findKeyPosition ((intLeaf ks).map Prod.fst) (some (.num k)) ≤ ks.length := by
      rw [← hilen, ← hmaplen]
      exact hle
    simp [List.length_take, List.length_drop, hilen]
    omega
  have hins : insertNode ord (.num k) v (.leaf (intLeaf ks))
      = (if btIsFull ord (ks.length + 1) then splitLeaf (ordInsert (.num k) v (intLeaf ks))
         else .one (.leaf (ordInsert (.num k) v (intLeaf ks)))) := by
    unfold insertNode
    simp only []
    cases hget : (intLeaf ks).get? (findKeyPosition ((intLeaf ks).map Prod.fst) (some (.num k))) with
    | none =>
      simp only []
      rw [hsplice, hlen']
    | some p =>
      obtain ⟨pk, pv⟩ := p
      have hne : jsStrictEq pk (.num k) = false := by
        have hmem : (pk, pv) ∈ intLeaf ks := List.get?_mem hget
        simp only [intLeaf, List.mem_map] at hmem
        obtain ⟨q, hq, hqe⟩ := hmem
        have : pk = .num q.1 := by
          have := congrArg Prod.fst hqe
          simpa using this.symm
        rw [this]
        simp only [jsStrictEq]
        simpa using hfresh q hq
      simp only [hne, Bool.false_eq_true, if_false]
      rw [hsplice, hlen']
  constructor
  · intro hsmall
    have hfull : ¬ (btIsFull ord (ks.length + 1) = true) := by
      unfold btIsFull
      simp only [ge_iff_le, decide_eq_true_eq, not_le]
      omega
    unfold BTree.insert
    rw [hins, if_neg hfull]
  · intro heq
    have hfull : btIsFull ord (ks.length + 1) = true := by
      unfold btIsFull
      simp only [ge_iff_le, decide_eq_true_eq]
      omega
    unfold BTree.insert
    rw [hins, if_pos hfull]
    unfold splitLeaf
    rw [hlen']
    exact ⟨rfl, by simp [BTNode.leafList, leafListList]⟩

/-- Witness for the amended C5 theorem at order 4 with leaf [(1,"a"),(2,"b")]
and fresh key 3: three keys meet the `order - 1` threshold, and the split
yields left [1], separator 2 (the right leaf's first key), right [2, 3]. -/
theorem c5_leaf_split_at_order_minus_one_witness :
    ([((1 : Int), "a"), (2, "b")].length + 1 < 4 - 1 →
      (BTree.insert ⟨4, .leaf (intLeaf [((1 : Int), "a"), (2, "b")])⟩ (.num 3) "c").root
        = .leaf (ordInsert (.num 3) "c" (intLeaf [((1 : Int), "a"), (2, "b")]))) ∧
    ([((1 : Int), "a"), (2, "b")].length + 1 = 4 - 1 →
      (BTree.insert ⟨4, .leaf (intLeaf [((1 : Int), "a"), (2, "b")])⟩ (.num 3) "c").root
        = .internal
            [(((ordInsert (.num 3) "c" (intLeaf [((1 : Int), "a"), (2, "b")])).drop
                (([((1 : Int), "a"), (2, "b")].length + 1) / 2)).headD (.null, "")).1]
            [.leaf ((ordInsert (.num 3) "c" (intLeaf [((1 : Int), "a"), (2, "b")])).take
                (([((1 : Int), "a"), (2, "b")].length + 1) / 2)),
             .leaf ((ordInsert (.num 3) "c" (intLeaf [((1 : Int), "a"), (2, "b")])).drop
                (([((1 : Int), "a"), (2, "b")].length + 1) / 2))] ∧
      (BTree.insert ⟨4, .leaf (intLeaf [((1 : Int), "a"), (2, "b")])⟩ (.num 3) "c").root.leafList
        = [(ordInsert (.num 3) "c" (intLeaf [((1 : Int), "a"), (2, "b")])).take
            (([((1 : Int), "a"), (2, "b")].length + 1) / 2),
           (ordInsert (.num 3) "c" (intLeaf [((1 : Int), "a"), (2, "b")])).drop
            (([((1 : Int), "a"), (2, "b")].length + 1) / 2)]) :=
  c5_leaf_split_at_order_minus_one 4 [((1 : Int), "a"), (2, "b")] 3 "c"
    (by simp [List.chain'_cons]) (by decide)
